import Mathlib

/-!
Verification development for the GhostSage assistant repository.

The repository's visible source contains the Next.js frontend
(`ghostsage-frontend/src/app/layout.tsx`) and the project READMEs; the
backend RAG core (chunker, embedder, vector index, ingestion pipeline,
retriever) is described by its documented contract.  Definitions for the
backend below are therefore modelled from that contract; definitions for
the frontend chat/upload handlers follow `layout.tsx` directly.

Text is modelled as `List Char`, vectors as `List ℚ`.  Cosine similarity
ranking is represented by the signed square of the cosine,
`dot q v * |dot q v| / (dot q q * dot v v)`, a strictly monotone function
of the cosine that stays inside `ℚ`; it preserves the cosine ordering,
its range `[-1, 1]`, and the maximal value `1` for parallel vectors.
-/

/-- Dot product of two rational vectors (extra coordinates ignored). -/
def dot : List ℚ → List ℚ → ℚ
  | x :: xs, y :: ys => x * y + dot xs ys
  | _, _ => 0

/-- Modelled from the spec: the similarity score used for ranking, a
strictly monotone representation of cosine similarity
(`dot q v * |dot q v| / (‖q‖² * ‖v‖²)`, the signed square of the cosine).
A zero-norm vector scores `0` against everything. -/
def score (q v : List ℚ) : ℚ :=
  if dot q q = 0 ∨ dot v v = 0 then 0
  else dot q v * |dot q v| / (dot q q * dot v v)

/-- A chunk record as stored in the vector index: identifier, owning
source, text span, offset within the source, and embedding vector. -/
structure Chunk where
  chunk_id : Nat
  source_id : String
  text : List Char
  offset : Nat
  embedding : List ℚ
deriving DecidableEq, Repr

/-- Modelled from the spec: the Vector Index stores chunk records in
insertion order. -/
structure VectorIndex where
  chunks : List Chunk
deriving DecidableEq, Repr

/-- Modelled from the spec: `insert` appends chunks, never dropping any. -/
def VectorIndex.insert (idx : VectorIndex) (cs : List Chunk) : VectorIndex :=
  ⟨idx.chunks ++ cs⟩

/-- Modelled from the spec: `delete_by_source` removes all chunks owned by
the given source. -/
def VectorIndex.delete_by_source (idx : VectorIndex) (sid : String) : VectorIndex :=
  ⟨idx.chunks.filter (fun c => c.source_id != sid)⟩

/-- Ranking relation on scored chunks: descending by score. -/
def rankRel (a b : Chunk × ℚ) : Prop := b.2 ≤ a.2

instance : DecidableRel rankRel := fun a b => inferInstanceAs (Decidable (b.2 ≤ a.2))

instance : IsTotal (Chunk × ℚ) rankRel := ⟨fun a b => (le_total b.2 a.2).imp id id⟩

instance : IsTrans (Chunk × ℚ) rankRel := ⟨fun _ _ _ hab hbc => le_trans hbc hab⟩

/-- Modelled from the spec: the candidate pool after the optional
source filter. -/
def poolOf (idx : VectorIndex) (filt : Option (List String)) : List Chunk :=
  match filt with
  | none => idx.chunks
  | some sids => idx.chunks.filter (fun c => sids.contains c.source_id)

/-- Modelled from the spec: score every candidate against the query and
sort by descending score (stable, so ties keep insertion order), then
keep the first `k`. -/
def searchRaw (idx : VectorIndex) (qv : List ℚ) (k : Nat)
    (filt : Option (List String)) : List (Chunk × ℚ) :=
  (List.insertionSort rankRel
    ((poolOf idx filt).map (fun c => (c, score qv c.embedding)))).take k

/-- Modelled from the spec: `search(query_vector, k, filter?)` returns up
to `k` chunks ranked by descending similarity; `k ≤ 0` is an input
error; searching an empty index returns an empty sequence. -/
def VectorIndex.search (idx : VectorIndex) (qv : List ℚ) (k : Int)
    (filt : Option (List String)) : Except String (List (Chunk × ℚ)) :=
  if k ≤ 0 then Except.error "InvalidArgument: k must be positive"
  else Except.ok (searchRaw idx qv k.toNat filt)

example :
    (VectorIndex.insert ⟨[]⟩ [⟨0, "s", ['a'], 0, [1, 0]⟩, ⟨1, "s", ['b'], 1, [0, 1]⟩]).search
      [1, 0] 2 none =
    Except.ok [(⟨0, "s", ['a'], 0, [1, 0]⟩, 1), (⟨1, "s", ['b'], 1, [0, 1]⟩, 0)] := by
  with_unfolding_all rfl

theorem dot_self_nonneg (v : List ℚ) : 0 ≤ dot v v := by
  induction v with
  | nil => simp [dot]
  | cons x xs ih =>
    have : dot (x :: xs) (x :: xs) = x * x + dot xs xs := rfl
    rw [this]
    nlinarith [mul_self_nonneg x]

theorem score_self (v : List ℚ) (h : dot v v ≠ 0) : score v v = 1 := by
  have hpos : 0 < dot v v := lt_of_le_of_ne (dot_self_nonneg v) (Ne.symm h)
  rw [score, if_neg (by simp [h]), abs_of_pos hpos, div_self (mul_ne_zero h h)]

theorem head_eq_of_unique_max {m l : List (Chunk × ℚ)} {x : Chunk × ℚ}
    (hperm : l.Perm m) (hs : List.Sorted rankRel l) (hx : x ∈ m)
    (hmax : ∀ y ∈ m, y ≠ x → y.2 < x.2) : l.head? = some x := by
  cases l with
  | nil => exact absurd (hperm.mem_iff.mpr hx) (List.not_mem_nil x)
  | cons h t =>
    by_cases hhx : h = x
    · simp [hhx]
    · have hhm : h ∈ m := hperm.mem_iff.mp (List.mem_cons_self h t)
      have h2 : h.2 < x.2 := hmax h hhm hhx
      rcases List.mem_cons.mp (hperm.mem_iff.mpr hx) with he | ht
      · exact absurd he.symm hhx
      · have hr : rankRel h x := (List.sorted_cons.mp hs).1 x ht
        exact absurd hr (not_le.mpr h2)

theorem head?_take_of_pos {α : Type} (n : Nat) (l : List α) (h : 1 ≤ n) :
    (l.take n).head? = l.head? := by
  cases l with
  | nil => simp
  | cons a t =>
    cases n with
    | zero => omega
    | succ m => simp [List.take]

/-- Claim C2 (amended): inserting a chunk and searching with that chunk's
own embedding (any `k ≥ 1`, no filter) returns that chunk at rank 1 with
the maximum similarity score, provided the chunk's embedding has nonzero
norm and no other chunk in the index scores the maximal value 1 against
it (a parallel embedding); otherwise an earlier-inserted tied chunk takes
rank 1 under the insertion-order tie-break. -/
theorem insert_search_roundtrip (idx : VectorIndex) (cs : List Chunk) (c : Chunk) (k : Int)
    (hk : 1 ≤ k) (hmem : c ∈ cs)
    (hnz : dot c.embedding c.embedding ≠ 0)
    (hother : ∀ o ∈ (idx.insert cs).chunks, o ≠ c →
      score c.embedding o.embedding < 1) :
    ∃ l, (idx.insert cs).search c.embedding k none = Except.ok l ∧
      l.head? = some (c, 1) ∧ ∀ p ∈ l, p.2 ≤ 1 := by
  have hkn : ¬ k ≤ 0 := by omega
  have hcm : c ∈ (idx.insert cs).chunks := by
    rw [VectorIndex.insert]
    exact List.mem_append_right _ hmem
  have hpool : poolOf (idx.insert cs) none = (idx.insert cs).chunks := rfl
  set m := ((idx.insert cs).chunks.map (fun o => (o, score c.embedding o.embedding))) with hm
  have hxm : (c, (1 : ℚ)) ∈ m := by
    rw [hm]
    exact List.mem_map.mpr ⟨c, hcm, by rw [score_self c.embedding hnz]⟩
  have hmax : ∀ y ∈ m, y ≠ (c, (1 : ℚ)) → y.2 < (1 : ℚ) := by
    intro y hy hyne
    rcases List.mem_map.mp hy with ⟨o, ho, rfl⟩
    by_cases hoc : o = c
    · subst hoc
      exact absurd (by rw [score_self o.embedding hnz]) hyne
    · exact hother o ho hoc
  have hsorted : List.Sorted rankRel (List.insertionSort rankRel m) :=
    List.sorted_insertionSort rankRel m
  have hperm : (List.insertionSort rankRel m).Perm m := List.perm_insertionSort rankRel m
  have hhead : (List.insertionSort rankRel m).head? = some (c, 1) :=
    head_eq_of_unique_max hperm hsorted hxm hmax
  refine ⟨searchRaw (idx.insert cs) c.embedding k.toNat none, ?_, ?_, ?_⟩
  · rw [VectorIndex.search, if_neg hkn]
  · rw [searchRaw, hpool, ← hm, head?_take_of_pos _ _ (by omega), hhead]
  · intro p hp
    rw [searchRaw, hpool, ← hm] at hp
    have hpm : p ∈ m := hperm.mem_iff.mp (List.take_subset _ _ hp)
    by_cases hpx : p = (c, (1 : ℚ))
    · rw [hpx]
    · exact le_of_lt (hmax p hpm hpx)

/-- Claim C2, witness: a concrete two-chunk index with orthogonal
embeddings; searching with the second chunk's embedding returns it at
rank 1 with score 1. -/
theorem insert_search_roundtrip_witness :
    ∃ l, (VectorIndex.insert ⟨[]⟩
        [⟨0, "s", ['a'], 0, [1, 0]⟩, ⟨1, "s", ['b'], 1, [0, 1]⟩]).search
        (Chunk.embedding ⟨1, "s", ['b'], 1, [0, 1]⟩) 2 none = Except.ok l ∧
      l.head? = some ((⟨1, "s", ['b'], 1, [0, 1]⟩ : Chunk), 1) ∧ ∀ p ∈ l, p.2 ≤ 1 :=
  insert_search_roundtrip ⟨[]⟩ [⟨0, "s", ['a'], 0, [1, 0]⟩, ⟨1, "s", ['b'], 1, [0, 1]⟩]
    ⟨1, "s", ['b'], 1, [0, 1]⟩ 2 (by decide) (by with_unfolding_all decide)
    (by with_unfolding_all decide) (by with_unfolding_all decide)

/-- Claim C2, counterexample to the claim as stated: two chunks share the
embedding `[1]`; searching with the second chunk's own embedding returns
the first chunk at rank 1 (insertion-order tie-break), not the chunk
whose embedding was the query. -/
theorem search_roundtrip_counterexample :
    (VectorIndex.insert ⟨[]⟩
        [⟨0, "s", ['a'], 0, [1]⟩, ⟨1, "s", ['b'], 1, [1]⟩]).search
        (Chunk.embedding ⟨1, "s", ['b'], 1, [1]⟩) 1 none =
      Except.ok [(⟨0, "s", ['a'], 0, [1]⟩, 1)] ∧
    (⟨0, "s", ['a'], 0, [1]⟩ : Chunk) ≠ ⟨1, "s", ['b'], 1, [1]⟩ := by
  constructor
  · with_unfolding_all rfl
  · decide

/-- Claim C5: for every valid `k ≥ 1`, `search` never throws and returns
exactly `min(k, n)` results on an index of `n` chunks; searching an
empty index returns the empty sequence rather than an error. -/
theorem search_returns_min_k_n (idx : VectorIndex) (q : List ℚ) (k : Int) (hk : 1 ≤ k) :
    ∃ l, idx.search q k none = Except.ok l ∧
      l.length = min k.toNat idx.chunks.length ∧
      (idx.chunks = [] → l = []) := by
  have hkn : ¬ k ≤ 0 := by omega
  refine ⟨searchRaw idx q k.toNat none, by rw [VectorIndex.search, if_neg hkn], ?_, ?_⟩
  · rw [searchRaw, List.length_take, List.length_insertionSort, List.length_map]
    rfl
  · intro h
    simp [searchRaw, poolOf, h]

/-- Claim C5, witness: `search(k = 5)` on a three-chunk index returns
exactly three results. -/
theorem search_returns_min_k_n_witness :
    ∃ l, (VectorIndex.mk
        [⟨0, "s", ['a'], 0, [1]⟩, ⟨1, "s", ['b'], 1, [2]⟩, ⟨2, "s", ['c'], 2, [3]⟩]).search
        [1] 5 none = Except.ok l ∧ l.length = 3 := by
  obtain ⟨l, h1, h2, _⟩ := search_returns_min_k_n
    ⟨[⟨0, "s", ['a'], 0, [1]⟩, ⟨1, "s", ['b'], 1, [2]⟩, ⟨2, "s", ['c'], 2, [3]⟩]⟩
    [1] 5 (by decide)
  refine ⟨l, h1, ?_⟩
  simp at h2
  omega

/-- Modelled from the spec: tokenizer helper; `cur` holds the current
token reversed, and a token boundary falls between a whitespace character
and a following non-whitespace character. -/
def splitTokensGo (cur : List Char) : List Char → List (List Char)
  | [] => [cur.reverse]
  | c :: cs =>
    if (cur.head?.elim false Char.isWhitespace) && !c.isWhitespace then
      cur.reverse :: splitTokensGo [c] cs
    else
      splitTokensGo (c :: cur) cs
/-- Modelled from the spec: splits text into unsplittable tokens (a word
together with its trailing whitespace); their concatenation is the
original text. -/
def splitTokens : List Char → List (List Char)
  | [] => []
  | c :: cs => splitTokensGo [c] cs
theorem splitTokensGo_join (cs : List Char) :
    ∀ cur, (splitTokensGo cur cs).flatten = cur.reverse ++ cs := by
  induction cs with
  | nil => intro cur; simp [splitTokensGo]
  | cons c cs ih =>
    intro cur
    rw [splitTokensGo]
    split
    · simp [ih]
    · simp [ih]

theorem splitTokens_flatten (text : List Char) : (splitTokens text).flatten = text := by
  cases text with
  | nil => rfl
  | cons c cs => simp [splitTokens, splitTokensGo_join]

/-- Modelled from the spec: greedy packing of tokens into chunks of at
most `maxc` characters; after closing a chunk the next one starts with an
overlap of up to `ovl` trailing characters of the previous chunk (the
overlap is shortened or dropped when the next token would not fit beside
it); a single token longer than `maxc` is emitted as one oversized chunk
rather than failing. -/
def pack (maxc ovl : Nat) : List (List Char) → List Char → Nat → List (List Char × Nat)
  | [], cur, pos => if cur.isEmpty then [] else [(cur, pos)]
  | t :: ts, cur, pos =>
    if cur.isEmpty then
      if t.length ≤ maxc then pack maxc ovl ts t pos
      else (t, pos) :: pack maxc ovl ts [] (pos + t.length)
    else
      if cur.length + t.length ≤ maxc then pack maxc ovl ts (cur ++ t) pos
      else
        if min ovl (cur.length - 1) + t.length ≤ maxc then
          (cur, pos) ::
            pack maxc ovl ts (cur.drop (cur.length - min ovl (cur.length - 1)) ++ t)
              (pos + (cur.length - min ovl (cur.length - 1)))
        else if t.length ≤ maxc then
          (cur, pos) :: pack maxc ovl ts t (pos + cur.length)
        else
          (cur, pos) :: (t, pos + cur.length) :: pack maxc ovl ts [] (pos + cur.length + t.length)
/-- Modelled from the spec: `chunk(text, max_chars, overlap_chars)`
returns the sequence of `(text_span, offset)` pairs in source order. -/
def chunkText (text : List Char) (maxc ovl : Nat) : List (List Char × Nat) :=
  pack maxc ovl (splitTokens text) [] 0
/-- Concatenates chunk spans while ignoring each chunk's overlap region
(the part of the span lying before the running end position). -/
def dropOverlaps (endPos : Nat) : List (List Char × Nat) → List Char
  | [] => []
  | (s, off) :: rest => s.drop (endPos - off) ++ dropOverlaps (off + s.length) rest

theorem pack_reconstruct (maxc ovl : Nat) (toks : List (List Char)) :
    ∀ (cur : List Char) (pos d : Nat), d ≤ cur.length →
      dropOverlaps (pos + d) (pack maxc ovl toks cur pos) = cur.drop d ++ toks.flatten := by
  induction toks with
  | nil =>
    intro cur pos d hd
    rw [pack]
    by_cases hc : cur.isEmpty
    · rw [if_pos hc]
      rw [List.isEmpty_iff] at hc
      subst hc
      simp [dropOverlaps]
    · rw [if_neg hc]
      simp only [dropOverlaps, List.flatten_nil, List.append_nil]
      have h0 : pos + d - pos = d := by omega
      rw [h0]
  | cons t ts ih =>
    intro cur pos d hd
    rw [pack]
    by_cases hc : cur.isEmpty
    · rw [if_pos hc]
      rw [List.isEmpty_iff] at hc
      subst hc
      have hd0 : d = 0 := by simpa using hd
      subst hd0
      by_cases ht : t.length ≤ maxc
      · rw [if_pos ht]
        have := ih t pos 0 (by omega)
        simpa using this
      · rw [if_neg ht]
        simp only [dropOverlaps]
        have h0 : pos + 0 - pos = 0 := by omega
        rw [h0]
        have hIH : dropOverlaps (pos + t.length) (pack maxc ovl ts [] (pos + t.length)) =
            ts.flatten := by
          have := ih [] (pos + t.length) 0 (by simp)
          simpa using this
        simp [hIH]
    · rw [if_neg hc]
      have hlen : 1 ≤ cur.length := by
        cases cur
        · simp at hc
        · simp
      by_cases hfit : cur.length + t.length ≤ maxc
      · rw [if_pos hfit]
        have := ih (cur ++ t) pos d (by simp; omega)
        rw [this, List.drop_append_of_le_length hd]
        simp
      · rw [if_neg hfit]
        have hkle : min ovl (cur.length - 1) ≤ cur.length := by omega
        by_cases hfit2 : min ovl (cur.length - 1) + t.length ≤ maxc
        · rw [if_pos hfit2]
          simp only [dropOverlaps]
          have harith : pos + d - pos = d := by omega
          rw [harith]
          have hc2len : (cur.drop (cur.length - min ovl (cur.length - 1))).length =
              min ovl (cur.length - 1) := by
            rw [List.length_drop]
            omega
          have hIH := ih (cur.drop (cur.length - min ovl (cur.length - 1)) ++ t)
            (pos + (cur.length - min ovl (cur.length - 1)))
            (cur.drop (cur.length - min ovl (cur.length - 1))).length (by simp)
          rw [List.drop_left] at hIH
          have heq : pos + cur.length = pos + (cur.length - min ovl (cur.length - 1)) +
              (cur.drop (cur.length - min ovl (cur.length - 1))).length := by
            rw [hc2len]; omega
          rw [heq, hIH]
          simp
        · rw [if_neg hfit2]
          by_cases ht : t.length ≤ maxc
          · rw [if_pos ht]
            simp only [dropOverlaps]
            have harith : pos + d - pos = d := by omega
            rw [harith]
            have hIH : dropOverlaps (pos + cur.length) (pack maxc ovl ts t (pos + cur.length)) =
                t ++ ts.flatten := by
              have := ih t (pos + cur.length) 0 (by omega)
              simpa using this
            simp [hIH]
          · rw [if_neg ht]
            simp only [dropOverlaps]
            have harith : pos + d - pos = d := by omega
            have harith2 : pos + cur.length - (pos + cur.length) = 0 := by omega
            rw [harith, harith2]
            have hIH : dropOverlaps (pos + cur.length + t.length)
                (pack maxc ovl ts [] (pos + cur.length + t.length)) = ts.flatten := by
              have := ih [] (pos + cur.length + t.length) 0 (by simp)
              simpa using this
            simp [hIH]

theorem pack_bound (maxc ovl : Nat) (toks : List (List Char)) :
    ∀ (cur : List Char) (pos : Nat), cur.length ≤ maxc →
      ∀ s off, (s, off) ∈ pack maxc ovl toks cur pos → s.length ≤ maxc ∨ s ∈ toks := by
  induction toks with
  | nil =>
    intro cur pos hcur s off hmem
    rw [pack] at hmem
    split at hmem
    · simp at hmem
    · simp at hmem
      exact Or.inl (hmem.1 ▸ hcur)
  | cons t ts ih =>
    intro cur pos hcur s off hmem
    rw [pack] at hmem
    split at hmem
    · split at hmem
      · rename_i ht
        rcases ih t pos ht s off hmem with h | h
        · exact Or.inl h
        · exact Or.inr (List.mem_cons_of_mem t h)
      · rcases List.mem_cons.mp hmem with h | h
        · have hst : s = t ∧ off = pos := by simpa using h
          refine Or.inr ?_
          rw [hst.1]
          exact List.mem_cons_self t ts
        · rcases ih [] (pos + t.length) (by simp) s off h with h2 | h2
          · exact Or.inl h2
          · exact Or.inr (List.mem_cons_of_mem t h2)
    · rename_i hc
      have hlen : 1 ≤ cur.length := by
        cases cur
        · simp at hc
        · simp
      split at hmem
      · rename_i hfit
        rcases ih (cur ++ t) pos (by simp; omega) s off hmem with h | h
        · exact Or.inl h
        · exact Or.inr (List.mem_cons_of_mem t h)
      · split at hmem
        · rename_i hfit2
          rcases List.mem_cons.mp hmem with h | h
          · have hsc : s = cur ∧ off = pos := by simpa using h
            exact Or.inl (by rw [hsc.1]; exact hcur)
          · rcases ih _ _ (by simp [List.length_drop]; omega) s off h with h2 | h2
            · exact Or.inl h2
            · exact Or.inr (List.mem_cons_of_mem t h2)
        · split at hmem
          · rename_i ht
            rcases List.mem_cons.mp hmem with h | h
            · have hsc : s = cur ∧ off = pos := by simpa using h
              exact Or.inl (by rw [hsc.1]; exact hcur)
            · rcases ih t _ ht s off h with h2 | h2
              · exact Or.inl h2
              · exact Or.inr (List.mem_cons_of_mem t h2)
          · rcases List.mem_cons.mp hmem with h | h
            · have hsc : s = cur ∧ off = pos := by simpa using h
              exact Or.inl (by rw [hsc.1]; exact hcur)
            · rcases List.mem_cons.mp h with h1 | h1
              · have hst : s = t ∧ off = pos + cur.length := by simpa using h1
                refine Or.inr ?_
                rw [hst.1]
                exact List.mem_cons_self t ts
              · rcases ih [] _ (by simp) s off h1 with h2 | h2
                · exact Or.inl h2
                · exact Or.inr (List.mem_cons_of_mem t h2)

/-- Claim C1: for non-empty text and `max_chars > overlap_chars >= 0`,
the chunks' concatenation (ignoring overlap regions) reconstructs the
text, and every chunk's length is at most `max_chars` except when the
chunk is a single unsplittable token longer than `max_chars`, which is
emitted as one oversized chunk. -/
theorem chunk_reconstruct_and_bounded (text : List Char) (maxc ovl : Nat)
    (hne : text ≠ []) (hov : ovl < maxc) :
    dropOverlaps 0 (chunkText text maxc ovl) = text ∧
    ∀ s off, (s, off) ∈ chunkText text maxc ovl →
      s.length ≤ maxc ∨ (s ∈ splitTokens text ∧ maxc < s.length) := by
  constructor
  · have h := pack_reconstruct maxc ovl (splitTokens text) [] 0 0 (by simp)
    simpa [chunkText, splitTokens_flatten] using h
  · intro s off hmem
    rcases pack_bound maxc ovl (splitTokens text) [] 0 (by simp) s off hmem with h | h
    · exact Or.inl h
    · by_cases hle : s.length ≤ maxc
      · exact Or.inl hle
      · exact Or.inr ⟨h, by omega⟩

/-- Claim C1, witness: a concrete text, chunk size 8 and overlap 3. -/
theorem chunk_reconstruct_and_bounded_witness :
    dropOverlaps 0 (chunkText "hello world foo".toList 8 3) = "hello world foo".toList ∧
    ∀ s off, (s, off) ∈ chunkText "hello world foo".toList 8 3 →
      s.length ≤ 8 ∨ (s ∈ splitTokens "hello world foo".toList ∧ 8 < s.length) :=
  chunk_reconstruct_and_bounded "hello world foo".toList 8 3 (by decide) (by decide)

/-- Modelled from the spec: the Embedder wraps an external embedding
model; it is modelled as a fixed deterministic function of the input
text, producing a vector of dimension `d`. -/
def modelEmbed (d : Nat) (t : List Char) : List ℚ :=
  (List.range d).map (fun i => ((t.map (fun ch => ((ch.toNat * (i + 1) : Nat) : ℚ))).sum))

/-- Modelled from the spec: batch embedding, one vector per input string,
order preserved. -/
def embedBatch (d : Nat) (ts : List (List Char)) : List (List ℚ) :=
  ts.map (modelEmbed d)

/-- Claim C6: `embed` is deterministic — two calls on the same input
sequence yield bit-identical vectors (no hidden randomness), and one
vector is produced per input. -/
theorem embedBatch_deterministic (d : Nat) (ts : List (List Char))
    (vs1 vs2 : List (List ℚ))
    (h1 : embedBatch d ts = vs1) (h2 : embedBatch d ts = vs2) :
    vs1 = vs2 ∧ vs1.length = ts.length := by
  refine ⟨h1.symm.trans h2, ?_⟩
  rw [← h1, embedBatch, List.length_map]

/-- Claim C6, witness: two calls of the model embedder on the same
concrete batch. -/
theorem embedBatch_deterministic_witness :
    ([[195, 390]] : List (List ℚ)) = [[195, 390]] ∧
    ([[195, 390]] : List (List ℚ)).length = (["ab".toList] : List (List Char)).length :=
  embedBatch_deterministic 2 ["ab".toList] [[195, 390]] [[195, 390]]
    (by with_unfolding_all rfl) (by with_unfolding_all rfl)

/-- Ingestion result status values per the spec's external interface. -/
inductive IngestStatus
  | ok
  | no_content
  | too_large
  | error
deriving DecidableEq, Repr

/-- Result of one ingestion: status, number of chunks indexed, and the
ingested file's name. -/
structure IngestResult where
  status : IngestStatus
  chunk_count : Nat
  filename : String
deriving DecidableEq, Repr

/-- Modelled from the spec: build the chunk records of one source from
the chunker's spans, embedding each span. -/
def mkChunks (embedFn : List Char → List ℚ) (sid : String)
    (spans : List (List Char × Nat)) : List Chunk :=
  spans.enum.map (fun p => ⟨p.1, sid, p.2.1, p.2.2, embedFn p.2.1⟩)

/-- Modelled from the spec: the Ingestion Pipeline. Content above the
size limit is rejected as `too_large` before extraction; empty or
whitespace-only extracted text returns `no_content` without touching the
index; otherwise the text is chunked and embedded and the index is
updated by `delete_by_source` followed by `insert` for the source.
Extraction is plain-text passthrough. -/
def ingest (embedFn : List Char → List ℚ) (maxSize maxc ovl : Nat)
    (sid filename : String) (raw : List Char) (idx : VectorIndex) :
    IngestResult × VectorIndex :=
  if maxSize < raw.length then (⟨.too_large, 0, filename⟩, idx)
  else if raw.all Char.isWhitespace then (⟨.no_content, 0, filename⟩, idx)
  else
    (⟨.ok, (mkChunks embedFn sid (chunkText raw maxc ovl)).length, filename⟩,
      (idx.delete_by_source sid).insert (mkChunks embedFn sid (chunkText raw maxc ovl)))

theorem mkChunks_source_id (embedFn : List Char → List ℚ) (sid : String)
    (spans : List (List Char × Nat)) :
    ∀ c ∈ mkChunks embedFn sid spans, c.source_id = sid := by
  intro c hc
  rcases List.mem_map.mp hc with ⟨p, _, rfl⟩
  rfl

theorem mkChunks_length (embedFn : List Char → List ℚ) (sid : String)
    (spans : List (List Char × Nat)) :
    (mkChunks embedFn sid spans).length = spans.length := by
  simp [mkChunks]

theorem countP_delete_insert (idx : VectorIndex) (sid : String) (cs : List Chunk)
    (hcs : ∀ c ∈ cs, c.source_id = sid) :
    ((idx.delete_by_source sid).insert cs).chunks.countP
      (fun c => c.source_id == sid) = cs.length := by
  rw [VectorIndex.insert, VectorIndex.delete_by_source]
  show ((idx.chunks.filter _) ++ cs).countP _ = cs.length
  rw [List.countP_append]
  have h0 : (idx.chunks.filter (fun c => c.source_id != sid)).countP
      (fun c => c.source_id == sid) = 0 := by
    rw [List.countP_eq_zero]
    intro c hc
    have hne := (List.mem_filter.mp hc).2
    simp only [bne_iff_ne, ne_eq] at hne
    simp [hne]
  have h1 : cs.countP (fun c => c.source_id == sid) = cs.length := by
    rw [List.countP_eq_length]
    intro c hc
    simp [hcs c hc]
  rw [h0, h1]
  omega

theorem splitTokensGo_ne_nil (cs : List Char) : ∀ cur, splitTokensGo cur cs ≠ [] := by
  induction cs with
  | nil => intro cur; simp [splitTokensGo]
  | cons c cs ih =>
    intro cur
    rw [splitTokensGo]
    split
    · simp
    · exact ih _

theorem splitTokensGo_toks_ne_nil (cs : List Char) :
    ∀ cur, cur ≠ [] → ∀ tok ∈ splitTokensGo cur cs, tok ≠ [] := by
  induction cs with
  | nil =>
    intro cur hcur tok htok
    rw [splitTokensGo] at htok
    simp only [List.mem_singleton] at htok
    subst htok
    simpa using hcur
  | cons c cs ih =>
    intro cur hcur tok htok
    rw [splitTokensGo] at htok
    split at htok
    · rcases List.mem_cons.mp htok with h | h
      · subst h
        simpa using hcur
      · exact ih [c] (by simp) tok h
    · exact ih (c :: cur) (by simp) tok htok

theorem pack_ne_nil_of_cur (maxc ovl : Nat) (toks : List (List Char)) :
    ∀ cur pos, cur ≠ [] → pack maxc ovl toks cur pos ≠ [] := by
  induction toks with
  | nil =>
    intro cur pos hcur
    rw [pack, if_neg (by simpa using hcur)]
    simp
  | cons t ts ih =>
    intro cur pos hcur
    rw [pack, if_neg (by simpa using hcur)]
    split
    · exact ih _ _ (by simp [hcur])
    · split
      · simp
      · split
        · simp
        · simp

theorem chunkText_ne_nil (text : List Char) (maxc ovl : Nat) (h : text ≠ []) :
    chunkText text maxc ovl ≠ [] := by
  cases text with
  | nil => exact absurd rfl h
  | cons c cs =>
    rw [chunkText, splitTokens]
    have htoks : splitTokensGo [c] cs ≠ [] := splitTokensGo_ne_nil cs [c]
    have htne : ∀ tok ∈ splitTokensGo [c] cs, tok ≠ [] :=
      splitTokensGo_toks_ne_nil cs [c] (by simp)
    cases htk : splitTokensGo [c] cs with
    | nil => exact absurd htk htoks
    | cons t ts =>
      have htn : t ≠ [] := htne t (by rw [htk]; exact List.mem_cons_self t ts)
      rw [pack, if_pos (by simp)]
      split
      · exact pack_ne_nil_of_cur maxc ovl ts t 0 htn
      · simp

/-- Claim C3: re-ingesting the same document under the same `source_id`
is idempotent in effect: after the second ingestion the index holds
exactly `chunk_count` chunks for that source, never `2 * chunk_count`,
because the pipeline always deletes by source before inserting; the
second ingestion also reports the same result. -/
theorem ingest_idempotent_re_ingest (E : List Char → List ℚ) (ms mc ov : Nat)
    (sid fn : String) (raw : List Char) (idx0 : VectorIndex)
    (hok : (ingest E ms mc ov sid fn raw idx0).1.status = IngestStatus.ok) :
    (ingest E ms mc ov sid fn raw (ingest E ms mc ov sid fn raw idx0).2).2.chunks.countP
        (fun c => c.source_id == sid) = (ingest E ms mc ov sid fn raw idx0).1.chunk_count ∧
    (ingest E ms mc ov sid fn raw (ingest E ms mc ov sid fn raw idx0).2).2.chunks.countP
        (fun c => c.source_id == sid) ≠ 2 * (ingest E ms mc ov sid fn raw idx0).1.chunk_count ∧
    (ingest E ms mc ov sid fn raw (ingest E ms mc ov sid fn raw idx0).2).1 =
      (ingest E ms mc ov sid fn raw idx0).1 := by
  by_cases h1 : ms < raw.length
  · rw [ingest, if_pos h1] at hok
    exact absurd hok (by simp)
  by_cases h2 : raw.all Char.isWhitespace
  · rw [ingest, if_neg h1, if_pos h2] at hok
    exact absurd hok (by simp)
  have hraw : raw ≠ [] := by
    intro h
    subst h
    exact h2 rfl
  have hcc : 1 ≤ (mkChunks E sid (chunkText raw mc ov)).length := by
    rw [mkChunks_length]
    have hne := chunkText_ne_nil raw mc ov hraw
    cases h : chunkText raw mc ov with
    | nil => exact absurd h hne
    | cons a l => simp
  refine ⟨?_, ?_, ?_⟩
  · simp only [ingest, if_neg h1, if_neg h2]
    exact countP_delete_insert _ sid _ (mkChunks_source_id E sid (chunkText raw mc ov))
  · simp only [ingest, if_neg h1, if_neg h2]
    rw [countP_delete_insert _ sid _ (mkChunks_source_id E sid (chunkText raw mc ov))]
    omega
  · simp only [ingest, if_neg h1, if_neg h2]

/-- Claim C3, witness: ingesting a concrete document twice into an empty
index under source id `doc`. -/
theorem ingest_idempotent_re_ingest_witness :
    (ingest (modelEmbed 2) 100 8 3 "doc" "doc.txt" "hello world foo".toList
        (ingest (modelEmbed 2) 100 8 3 "doc" "doc.txt" "hello world foo".toList
          ⟨[]⟩).2).2.chunks.countP (fun c => c.source_id == "doc") =
      (ingest (modelEmbed 2) 100 8 3 "doc" "doc.txt" "hello world foo".toList
        ⟨[]⟩).1.chunk_count ∧
    (ingest (modelEmbed 2) 100 8 3 "doc" "doc.txt" "hello world foo".toList
        (ingest (modelEmbed 2) 100 8 3 "doc" "doc.txt" "hello world foo".toList
          ⟨[]⟩).2).2.chunks.countP (fun c => c.source_id == "doc") ≠
      2 * (ingest (modelEmbed 2) 100 8 3 "doc" "doc.txt" "hello world foo".toList
        ⟨[]⟩).1.chunk_count ∧
    (ingest (modelEmbed 2) 100 8 3 "doc" "doc.txt" "hello world foo".toList
        (ingest (modelEmbed 2) 100 8 3 "doc" "doc.txt" "hello world foo".toList
          ⟨[]⟩).2).1 =
      (ingest (modelEmbed 2) 100 8 3 "doc" "doc.txt" "hello world foo".toList ⟨[]⟩).1 :=
  ingest_idempotent_re_ingest (modelEmbed 2) 100 8 3 "doc" "doc.txt"
    "hello world foo".toList ⟨[]⟩ (by with_unfolding_all rfl)

/-- Claim C4: ingesting content whose extracted text is empty or
whitespace-only (and within the size limit) returns `no_content` with
`chunk_count = 0` and leaves the Vector Index completely unchanged, so
any later search returns the same results as before. -/
theorem ingest_no_content_unchanged (E : List Char → List ℚ) (ms mc ov : Nat)
    (sid fn : String) (raw : List Char) (idx0 : VectorIndex)
    (hws : raw.all Char.isWhitespace = true) (hsz : raw.length ≤ ms) :
    (ingest E ms mc ov sid fn raw idx0).1.status = IngestStatus.no_content ∧
    (ingest E ms mc ov sid fn raw idx0).1.chunk_count = 0 ∧
    (ingest E ms mc ov sid fn raw idx0).2 = idx0 ∧
    ∀ qv k filt, (ingest E ms mc ov sid fn raw idx0).2.search qv k filt =
      idx0.search qv k filt := by
  have h1 : ¬ ms < raw.length := by omega
  have hing : ingest E ms mc ov sid fn raw idx0 = (⟨.no_content, 0, fn⟩, idx0) := by
    rw [ingest, if_neg h1, if_pos hws]
  rw [hing]
  exact ⟨rfl, rfl, rfl, fun _ _ _ => rfl⟩

/-- Claim C4, witness: ingesting a whitespace-only file into a one-chunk
index. -/
theorem ingest_no_content_unchanged_witness :
    (ingest (modelEmbed 2) 100 8 3 "doc" "empty.txt" "   ".toList
        ⟨[⟨0, "s", ['a'], 0, [1]⟩]⟩).1.status = IngestStatus.no_content ∧
    (ingest (modelEmbed 2) 100 8 3 "doc" "empty.txt" "   ".toList
        ⟨[⟨0, "s", ['a'], 0, [1]⟩]⟩).1.chunk_count = 0 ∧
    (ingest (modelEmbed 2) 100 8 3 "doc" "empty.txt" "   ".toList
        ⟨[⟨0, "s", ['a'], 0, [1]⟩]⟩).2 = ⟨[⟨0, "s", ['a'], 0, [1]⟩]⟩ ∧
    ∀ qv k filt, (ingest (modelEmbed 2) 100 8 3 "doc" "empty.txt" "   ".toList
        ⟨[⟨0, "s", ['a'], 0, [1]⟩]⟩).2.search qv k filt =
      (⟨[⟨0, "s", ['a'], 0, [1]⟩]⟩ : VectorIndex).search qv k filt :=
  ingest_no_content_unchanged (modelEmbed 2) 100 8 3 "doc" "empty.txt" "   ".toList
    ⟨[⟨0, "s", ['a'], 0, [1]⟩]⟩ (by decide) (by decide)

/-- Modelled from the spec: the ephemeral result of one retrieval — the
assembled context text and the cited source ids. -/
structure QueryContext where
  context_text : List Char
  cited_sources : List String
deriving DecidableEq, Repr

/-- Modelled from the spec: Retriever configuration — candidate count `k`
and the minimum relevance threshold. -/
structure RetrieverConfig where
  k : Nat
  threshold : ℚ
deriving Repr

/-- Ordering of selected chunks for context assembly: by source, then by
offset within each source. -/
def offRel (a b : Chunk) : Prop :=
  a.source_id < b.source_id ∨ (a.source_id = b.source_id ∧ a.offset ≤ b.offset)

instance : DecidableRel offRel := fun a b =>
  inferInstanceAs (Decidable (a.source_id < b.source_id ∨
    (a.source_id = b.source_id ∧ a.offset ≤ b.offset)))

/-- Modelled from the spec: greedy budgeted selection of ranked
candidates, skipping near-duplicates (modelled as exact text duplicates)
and stopping when the next chunk would exceed the remaining character
budget. -/
def selectBudget (budget : Nat) (picked : List Chunk) : List (Chunk × ℚ) → List Chunk
  | [] => picked.reverse
  | (c, _) :: rest =>
    if picked.any (fun p => p.text == c.text) then selectBudget budget picked rest
    else if budget < c.text.length then picked.reverse
    else selectBudget (budget - c.text.length) (c :: picked) rest

/-- Modelled from the spec: the chunks selected for one retrieval —
search candidates filtered by the relevance threshold, budget-selected,
then ordered by source and offset for assembly. -/
def retrieveSelected (embedFn : List Char → List ℚ) (idx : VectorIndex)
    (cfg : RetrieverConfig) (query : List Char) (budget_chars : Nat)
    (srcs : Option (List String)) : List Chunk :=
  List.insertionSort offRel
    (selectBudget budget_chars []
      ((searchRaw idx (embedFn query) cfg.k srcs).filter
        (fun p => cfg.threshold ≤ p.2)))

/-- Modelled from the spec:
`retrieve(query, budget_chars, scoped_sources?) -> QueryContext`. -/
def retrieve (embedFn : List Char → List ℚ) (idx : VectorIndex)
    (cfg : RetrieverConfig) (query : List Char) (budget_chars : Nat)
    (srcs : Option (List String)) : QueryContext :=
  ⟨((retrieveSelected embedFn idx cfg query budget_chars srcs).map Chunk.text).flatten,
    ((retrieveSelected embedFn idx cfg query budget_chars srcs).map Chunk.source_id).dedup⟩

/-- Claim C7: when every search candidate scores below the minimum
relevance threshold, `retrieve` returns an empty `QueryContext` (empty
context text, no cited sources) rather than an error or irrelevant
context. -/
theorem retrieve_empty_when_below_threshold (embedFn : List Char → List ℚ)
    (idx : VectorIndex) (cfg : RetrieverConfig) (query : List Char)
    (budget_chars : Nat) (srcs : Option (List String))
    (h : ∀ p ∈ searchRaw idx (embedFn query) cfg.k srcs, p.2 < cfg.threshold) :
    retrieve embedFn idx cfg query budget_chars srcs = ⟨[], []⟩ := by
  have hfilter : (searchRaw idx (embedFn query) cfg.k srcs).filter
      (fun p => cfg.threshold ≤ p.2) = [] := by
    rw [List.filter_eq_nil_iff]
    intro p hp
    simpa using not_le.mpr (h p hp)
  have hsel : retrieveSelected embedFn idx cfg query budget_chars srcs = [] := by
    rw [retrieveSelected, hfilter]
    rfl
  rw [retrieve, hsel]
  rfl

/-- Claim C7, witness: a finance-only index queried with an unrelated
query under a threshold no candidate reaches. -/
theorem retrieve_empty_when_below_threshold_witness :
    retrieve (modelEmbed 2) ⟨[⟨0, "fin", "rates".toList, 0, [1, 0]⟩]⟩ ⟨8, 2⟩
      "quantum physics".toList 500 none = ⟨[], []⟩ :=
  retrieve_empty_when_below_threshold (modelEmbed 2)
    ⟨[⟨0, "fin", "rates".toList, 0, [1, 0]⟩]⟩ ⟨8, 2⟩ "quantum physics".toList 500 none
    (by with_unfolding_all decide)

/-- String form of an ingest status, as carried in the upload endpoint's
JSON `status` field. -/
def statusString : IngestStatus → String
  | .ok => "ok"
  | .no_content => "no_content"
  | .too_large => "too_large"
  | .error => "error"

/-- Modelled from the spec: the upload endpoint's JSON response fields
`status`, `chunks_indexed`, `filename`, driven by the ingest result. -/
def uploadResponse (r : IngestResult) : String × Nat × String :=
  (statusString r.status, r.chunk_count, r.filename)

/-- Frontend upload-status rendering, from `handleUpload` in
`layout.tsx`: `ok` and `no_content` have dedicated messages and every
other status is rendered generically. -/
def renderUploadStatus (status : String) (chunks_indexed : Nat) (filename : String) : String :=
  if status = "ok" then
    "Indexed " ++ toString chunks_indexed ++ " chunks from \"" ++ filename ++
      "\". You can now ask questions about it."
  else if status = "no_content" then
    "Uploaded \"" ++ filename ++ "\", but no usable text was extracted."
  else
    "Upload completed with status: " ++ status

/-- Claim C8: every ingest result carries a status among
ok/no_content/too_large/error together with `chunk_count` and
`filename`; these drive the upload endpoint's response fields exactly,
and the frontend renders each status string (dedicated messages for `ok`
and `no_content`, a generic one for the rest). -/
theorem ingest_status_drives_upload (E : List Char → List ℚ) (ms mc ov : Nat)
    (sid fn : String) (raw : List Char) (idx : VectorIndex) :
    statusString (ingest E ms mc ov sid fn raw idx).1.status ∈
      ["ok", "no_content", "too_large", "error"] ∧
    (ingest E ms mc ov sid fn raw idx).1.filename = fn ∧
    uploadResponse (ingest E ms mc ov sid fn raw idx).1 =
      (statusString (ingest E ms mc ov sid fn raw idx).1.status,
        (ingest E ms mc ov sid fn raw idx).1.chunk_count, fn) ∧
    renderUploadStatus (statusString (ingest E ms mc ov sid fn raw idx).1.status)
        (ingest E ms mc ov sid fn raw idx).1.chunk_count fn =
      (if (ingest E ms mc ov sid fn raw idx).1.status = IngestStatus.ok then
        "Indexed " ++ toString (ingest E ms mc ov sid fn raw idx).1.chunk_count ++
          " chunks from \"" ++ fn ++ "\". You can now ask questions about it."
      else if (ingest E ms mc ov sid fn raw idx).1.status = IngestStatus.no_content then
        "Uploaded \"" ++ fn ++ "\", but no usable text was extracted."
      else
        "Upload completed with status: " ++
          statusString (ingest E ms mc ov sid fn raw idx).1.status) := by
  have hfn : (ingest E ms mc ov sid fn raw idx).1.filename = fn := by
    rw [ingest]
    split
    · rfl
    · split
      · rfl
      · rfl
  refine ⟨?_, hfn, ?_, ?_⟩
  · cases (ingest E ms mc ov sid fn raw idx).1.status <;> simp [statusString]
  · rw [uploadResponse, hfn]
  · cases h : (ingest E ms mc ov sid fn raw idx).1.status <;>
      simp [statusString, renderUploadStatus]

/-- Models JavaScript's `String.prototype.trim` on character lists:
leading and trailing whitespace removed. -/
def trimChars (l : List Char) : List Char :=
  ((l.dropWhile Char.isWhitespace).reverse.dropWhile Char.isWhitespace).reverse

/-- A chat transcript message, per `layout.tsx` (`role` is `user` or
`assistant`). -/
structure ChatMessage where
  role : String
  content : List Char
deriving DecidableEq, Repr

/-- Body of the frontend's POST to `/api/chat`. -/
structure ChatRequest where
  session_id : Option String
  message : List Char
deriving DecidableEq, Repr

/-- Body of a successful `/api/chat` response. -/
structure ChatResponse where
  session_id : String
  reply : List Char
  history : List ChatMessage
deriving DecidableEq, Repr

/-- The frontend chat state managed by `HomePage` in `layout.tsx`:
session id, message list, input box contents, in-flight flag. -/
structure ChatState where
  sessionId : Option String
  messages : List ChatMessage
  input : List Char
  isSending : Bool
deriving DecidableEq, Repr

/-- The synchronous part of `handleSend` (`layout.tsx`): if the trimmed
input is empty or a send is in flight, nothing happens; otherwise the
user message is appended optimistically, the input is cleared, the
sending flag is set, and the chat request is issued. -/
def handleSendStart (st : ChatState) : ChatState × Option ChatRequest :=
  if trimChars st.input = [] ∨ st.isSending then (st, none)
  else
    ({ st with
        messages := st.messages ++ [⟨"user", trimChars st.input⟩],
        input := [],
        isSending := true },
      some ⟨st.sessionId, trimChars st.input⟩)

/-- The fixed assistant message `handleSend` appends when the chat
request fails (`layout.tsx`). -/
def chatErrorText : List Char :=
  "GhostSage hit an error talking to the backend. Check the FastAPI server logs.".toList

/-- The complete `handleSend` flow (`layout.tsx`): `outcome = none`
models a non-ok HTTP response or a network error, `some resp` a
successful response. -/
def handleSend (st : ChatState) (outcome : Option ChatResponse) : ChatState :=
  match handleSendStart st with
  | (st1, none) => st1
  | (st1, some _) =>
    match outcome with
    | some resp =>
      { st1 with
          sessionId := some resp.session_id,
          messages := resp.history,
          isSending := false }
    | none =>
      { st1 with
          messages := st1.messages ++ [⟨"assistant", chatErrorText⟩],
          isSending := false }

/-- Claim C9: submitting the chat form with an empty trimmed input, or
while a send is in flight, performs no request and leaves the state
(messages, session id, sending flag) unchanged; consequently every
request actually issued carries the trimmed, non-empty input. -/
theorem handleSend_guard_no_request (st : ChatState)
    (h : trimChars st.input = [] ∨ st.isSending = true) :
    handleSendStart st = (st, none) ∧
    ∀ st2 req, (handleSendStart st2).2 = some req →
      req.message = trimChars st2.input ∧ req.message ≠ [] := by
  constructor
  · rw [handleSendStart, if_pos (by simpa using h)]
  · intro st2 req hreq
    rw [handleSendStart] at hreq
    split at hreq
    · simp at hreq
    · rename_i hcond
      have hr := Option.some.inj hreq
      rw [← hr]
      have hne : ¬ trimChars st2.input = [] := by
        intro hnil
        exact hcond (Or.inl hnil)
      exact ⟨rfl, hne⟩

/-- Claim C9, witness: a whitespace-only input box. -/
theorem handleSend_guard_no_request_witness :
    handleSendStart ⟨none, [], "   ".toList, false⟩ = (⟨none, [], "   ".toList, false⟩, none) ∧
    ∀ st2 req, (handleSendStart st2).2 = some req →
      req.message = trimChars st2.input ∧ req.message ≠ [] :=
  handleSend_guard_no_request ⟨none, [], "   ".toList, false⟩ (Or.inl (by decide))

/-- Claim C10: when the chat request fails, the resulting message list is
the prior list plus the user's just-sent message plus exactly one
assistant message with the fixed error text; the user's message is never
dropped and the session id is unchanged. -/
theorem handleSend_failure_appends_error (st : ChatState)
    (h1 : trimChars st.input ≠ []) (h2 : st.isSending = false) :
    handleSend st none =
      { sessionId := st.sessionId,
        messages := st.messages ++
          [⟨"user", trimChars st.input⟩, ⟨"assistant", chatErrorText⟩],
        input := [],
        isSending := false } := by
  have hcond : ¬ (trimChars st.input = [] ∨ st.isSending = true) := by
    simp [h1, h2]
  rw [handleSend, handleSendStart, if_neg (by simpa using hcond)]
  simp

/-- Claim C10, witness: a concrete state with one prior message and a
pending input, hit by a failing request. -/
theorem handleSend_failure_appends_error_witness :
    handleSend ⟨some "abc123", [⟨"user", "hi".toList⟩], " how are you ".toList, false⟩ none =
      { sessionId := some "abc123",
        messages := [⟨"user", "hi".toList⟩] ++
          [⟨"user", trimChars " how are you ".toList⟩, ⟨"assistant", chatErrorText⟩],
        input := [],
        isSending := false } :=
  handleSend_failure_appends_error
    ⟨some "abc123", [⟨"user", "hi".toList⟩], " how are you ".toList, false⟩
    (by decide) rfl
